import Mathlib

/-!
Verification of the mempool / transaction-manager / UTXO-cache core of the
repository.  The C++ classes `Transaction`, `Mempool`, `TransactionManager`
(from `003-advanced/projects/03_transaction_manager.md`) and `UTXOCache`
(from `004-modern/02_containers.md`) are embedded shallowly: byte vectors
become `List Nat`, `std::unordered_map` becomes an association list with the
map operations the source uses (`find`, `operator[]` assignment,
`insert_or_assign`, `erase`), and the external SHA-256 collaborator is a
function parameter.  The eviction and batch-rejection behaviour that the
lessons only describe is modelled from the specification and marked as such.
-/

namespace Cpp

set_option maxRecDepth 100000

/-- Byte sequences (`std::vector<uint8_t>`); each element is one byte value. -/
abbrev Payload := List Nat

/-! ### Association-list map operations

`std::unordered_map` keeps at most one mapping per key.  We model its state
as an association list and its operations as first-occurrence find, replace
or append assignment (`operator[] =` / `insert_or_assign`), and
first-occurrence erase (`erase(find(k))`). -/

/-- Lookup of the mapping for key `k` (`map.find(k)`). -/
def mapFind {κ α : Type} [DecidableEq κ] : List (κ × α) → κ → Option α
  | [], _ => none
  | (k2, v) :: rest, k => if k2 = k then some v else mapFind rest k

/-- Assignment `map[k] = v` (also `insert_or_assign`): replaces the mapping
for `k` when present, otherwise appends a new mapping. -/
def mapAssign {κ α : Type} [DecidableEq κ] : List (κ × α) → κ → α → List (κ × α)
  | [], k, v => [(k, v)]
  | (k2, v2) :: rest, k, v =>
      if k2 = k then (k, v) :: rest else (k2, v2) :: mapAssign rest k v

/-- Erasure `map.erase(k)`: removes the mapping for `k` when present. -/
def mapErase {κ α : Type} [DecidableEq κ] : List (κ × α) → κ → List (κ × α)
  | [], _ => []
  | (k2, v2) :: rest, k =>
      if k2 = k then rest else (k2, v2) :: mapErase rest k

/-! ### Transaction (`transaction.h` / `transaction.cpp`) -/

/-- One lowercase hexadecimal digit, as printed by `std::hex`. -/
def hexDigit (n : Nat) : Char :=
  if n < 10 then Char.ofNat (48 + n) else Char.ofNat (87 + n)

/-- Two-digit lowercase hexadecimal rendering of one byte, as produced by
`ss << std::hex << std::setw(2) << std::setfill(0) << (int)hash[i]`; the
argument is an `unsigned char`, hence the `% 256`. -/
def hexByte (b : Nat) : List Char :=
  [hexDigit (b % 256 / 16), hexDigit (b % 16)]

/-- `Transaction::calculateTxid`: the txid is the lowercase hex encoding of
the SHA-256 digest of the payload.  The SHA-256 computation itself is the
external hashing collaborator and is passed in as a function. -/
def calculateTxid (sha256 : Payload → Payload) (data : Payload) : String :=
  String.mk ((sha256 data).map hexByte).flatten

/-- `class Transaction`: an owned payload plus the txid computed from it at
construction.  Both fields are immutable (the class exposes only getters). -/
structure Transaction where
  data : Payload
  txid : String
  deriving DecidableEq, Repr

/-- The `Transaction(std::vector<uint8_t> data)` constructor: moves the
payload in and runs `calculateTxid`. -/
def Transaction.make (sha256 : Payload → Payload) (data : Payload) : Transaction :=
  { data := data, txid := calculateTxid sha256 data }

/-- `Transaction::getTxid`. -/
def Transaction.getTxid (tx : Transaction) : String := tx.txid

/-- `Transaction::getSize`, i.e. `data_.size()`. -/
def Transaction.getSize (tx : Transaction) : Nat := tx.data.length

/-! ### Mempool (`mempool.h` / `mempool.cpp`)

The mutex only serialises operations; each public method is embedded as a
pure state transformer on the quiescent store state. -/

/-- `class Mempool`: the txid-keyed transaction map and the running
`totalSize_` counter.  `totalSize_` is a `size_t`; its overflow is
unreachable for sums of in-memory payload lengths, so it is modelled as a
`Nat` (subtraction in `removeTransaction` never underflows on states the
public interface can produce). -/
structure Mempool where
  transactions : List (String × Transaction)
  totalSize : Nat
  deriving DecidableEq, Repr

/-- A `Mempool` as default-constructed: no transactions, `totalSize_ = 0`. -/
def Mempool.empty : Mempool := { transactions := [], totalSize := 0 }

/-- `Mempool::addTransaction`: unconditionally adds the transaction's size to
`totalSize_` and assigns `transactions_[txid] = tx` (overwriting any
existing mapping for the same txid).  Returns `void`; no failure path. -/
def Mempool.addTransaction (m : Mempool) (tx : Transaction) : Mempool :=
  { transactions := mapAssign m.transactions tx.getTxid tx,
    totalSize := m.totalSize + tx.getSize }

/-- `Mempool::removeTransaction`: returns `nullptr` (here `none`) and leaves
the pool untouched when the txid is absent; otherwise subtracts the entry's
size from `totalSize_`, erases the mapping, and hands the transaction back
to the caller. -/
def Mempool.removeTransaction (m : Mempool) (txid : String) :
    Option Transaction × Mempool :=
  match mapFind m.transactions txid with
  | none => (none, m)
  | some tx =>
      (some tx,
       { transactions := mapErase m.transactions txid,
         totalSize := m.totalSize - tx.getSize })

/-- `Mempool::hasTransaction`. -/
def Mempool.hasTransaction (m : Mempool) (txid : String) : Bool :=
  (mapFind m.transactions txid).isSome

/-- `Mempool::getTotalSize`: returns the maintained counter. -/
def Mempool.getTotalSize (m : Mempool) : Nat := m.totalSize

/-- Number of mappings in `transactions_` (what `transactions_.size()` would
return; the `Mempool` class itself exposes no count method). -/
def Mempool.entryCount (m : Mempool) : Nat := m.transactions.length

/-- Sum of the sizes of the transactions in a txid-keyed map state. -/
def txSizeSum (l : List (String × Transaction)) : Nat :=
  (l.map (fun p => p.2.getSize)).sum

/-- Sum of the sizes of the transactions currently present in the pool. -/
def presentSizeSum (m : Mempool) : Nat :=
  txSizeSum m.transactions

/-! ### Operation sequences on the mempool -/

/-- One mempool mutation: an insert of a constructed transaction or a
removal by txid. -/
inductive Op where
  | insert (tx : Transaction)
  | remove (txid : String)
  deriving DecidableEq, Repr

/-- Apply one operation (the value returned by a removal is dropped). -/
def applyOp (m : Mempool) : Op → Mempool
  | Op.insert tx => m.addTransaction tx
  | Op.remove txid => (m.removeTransaction txid).2

/-- Apply a finite sequence of operations left to right. -/
def applyOps (m : Mempool) (ops : List Op) : Mempool :=
  ops.foldl applyOp m

/-- An operation sequence is duplicate-free when no insert is performed
while its txid is already present in the pool. -/
def validOps : Mempool → List Op → Bool
  | _, [] => true
  | m, Op.insert tx :: rest =>
      !(m.hasTransaction tx.getTxid) && validOps (m.addTransaction tx) rest
  | m, Op.remove txid :: rest =>
      validOps ((m.removeTransaction txid).2) rest

/-! ### TransactionManager (`transaction_manager.h` / `transaction_manager.cpp`) -/

/-- `class TransactionManager`: owns one `Mempool`. -/
structure TransactionManager where
  mempool : Mempool
  deriving DecidableEq, Repr

/-- The body of `TransactionManager::addTransaction`, with the transaction
construction abstracted as a fallible function: in the source the
constructor call sits in a `try` block whose `catch (const std::exception)`
returns `false`, so a throwing construction (`Except.error`) yields `false`
with the mempool untouched, and a normal construction (`Except.ok`) is
inserted and `true` is returned.  No exception escapes the function. -/
def TransactionManager.addTransactionWith
    (ctor : Payload → Except Unit Transaction)
    (mgr : TransactionManager) (txData : Payload) : Bool × TransactionManager :=
  match ctor txData with
  | Except.ok tx => (true, { mempool := mgr.mempool.addTransaction tx })
  | Except.error _ => (false, mgr)

/-- `TransactionManager::addTransaction` with the actual `Transaction`
constructor, which performs no validation and (hashing aside) does not
throw. -/
def TransactionManager.addTransaction (sha256 : Payload → Payload)
    (mgr : TransactionManager) (txData : Payload) : Bool × TransactionManager :=
  mgr.addTransactionWith (fun p => Except.ok (Transaction.make sha256 p)) txData

/-- `TransactionManager::getMempoolSize`. -/
def TransactionManager.getMempoolSize (mgr : TransactionManager) : Nat :=
  mgr.mempool.getTotalSize

/-- `TransactionManager::getTransactionCount` exactly as written in the
source: `return 0;  // Placeholder`. -/
def TransactionManager.getTransactionCount (_mgr : TransactionManager) : Nat := 0

/-! ### UTXO cache (`004-modern/02_containers.md`, `cache.h`) -/

/-- `class OutPoint`: a 32-byte transaction hash (`Hash256`) plus a
`uint32_t` output index. -/
structure OutPoint where
  hash : List Nat
  n : Nat
  deriving DecidableEq, Repr

/-- `Coin<ScriptType>` instantiated with a byte-vector script: an `Amount`
(`int64_t`) value, the script, the block height and the coinbase flag. -/
structure Coin where
  value : Int
  script : List Nat
  height : Nat
  is_coinbase : Bool
  deriving DecidableEq, Repr

/-- `UTXOCache`: the `OutPoint → Coin` map (the `shared_mutex` only
serialises access and is not part of the quiescent state). -/
structure UTXOCache where
  cache : List (OutPoint × Coin)
  deriving DecidableEq, Repr

/-- `UTXOCache::getCoin`. -/
def UTXOCache.getCoin (c : UTXOCache) (outpoint : OutPoint) : Option Coin :=
  mapFind c.cache outpoint

/-- `UTXOCache::addCoin`: `emplace` inserts only when the key is absent. -/
def UTXOCache.addCoin (c : UTXOCache) (outpoint : OutPoint) (coin : Coin) :
    UTXOCache :=
  match mapFind c.cache outpoint with
  | some _ => c
  | none => { cache := c.cache ++ [(outpoint, coin)] }

/-- `UTXOCache::removeCoin`: erases the mapping and reports whether one was
erased. -/
def UTXOCache.removeCoin (c : UTXOCache) (outpoint : OutPoint) :
    Bool × UTXOCache :=
  ((mapFind c.cache outpoint).isSome, { cache := mapErase c.cache outpoint })

/-- `UTXOCache::batchUpdate`: walks the updates in order; a present coin is
applied with `insert_or_assign` (replace-or-insert), an absent one with
`erase` (which is a no-op when the key is missing).  The function returns
`void` and has no failure path. -/
def UTXOCache.batchUpdate (c : UTXOCache)
    (updates : List (OutPoint × Option Coin)) : UTXOCache :=
  updates.foldl
    (fun acc u =>
      match u.2 with
      | some coin => { cache := mapAssign acc.cache u.1 coin }
      | none => { cache := mapErase acc.cache u.1 })
    c

/-! ### Spec-modelled store with eviction and batch commit

The lessons leave size-based eviction as a practice exercise and give the
batch path (`UTXOCache::batchUpdate`) no validation or failure path, so the
following definitions model the specification's `IndexedStore`,
`EvictionPolicy` (SizeFIFO) and `BatchCoordinator` components, which have no
implementation under `src/`. -/

/-- Modelled from the spec: the error kinds of `IndexedStore.insert`
(`DuplicateKey`, `CapacityExhausted`); no implementation exists in `src/`. -/
inductive InsertError where
  | duplicateKey
  | capacityExhausted
  deriving DecidableEq, Repr

/-- Modelled from the spec: a store-resident entry, a transaction together
with the insertion `sequence` number the store assigned to it. -/
structure StoreEntry where
  tx : Transaction
  seq : Nat
  deriving DecidableEq, Repr

/-- Modelled from the spec: `IndexedStore` state — the Digest-keyed entry
map (kept here in ascending-`sequence` order), the maintained `totalSize`,
the configured `capacity` (`0` = unbounded) and the `nextSequence`
counter.  No implementation exists in `src/`. -/
structure IndexedStore where
  entries : List (String × StoreEntry)
  totalSize : Nat
  capacity : Nat
  nextSequence : Nat
  deriving DecidableEq, Repr

/-- An `IndexedStore` as freshly constructed with capacity `c`. -/
def IndexedStore.emptyWith (c : Nat) : IndexedStore :=
  { entries := [], totalSize := 0, capacity := c, nextSequence := 0 }

/-- Sum of the sizes of the entries in a store entry list. -/
def storeSizeSum (l : List (String × StoreEntry)) : Nat :=
  (l.map (fun e => e.2.tx.getSize)).sum

/-- Modelled from the spec: the SizeFIFO eviction loop — while the running
total exceeds the capacity, drop the oldest entry (the head of the
ascending-`sequence` list) and subtract its size; missing from `src/`
(left there as a practice exercise). -/
def evictLoop (cap : Nat) : List (String × StoreEntry) → Nat →
    List (String × StoreEntry) × Nat
  | [], total => ([], total)
  | e :: rest, total =>
      if cap < total then evictLoop cap rest (total - e.2.tx.getSize)
      else (e :: rest, total)

/-- Modelled from the spec: `IndexedStore.insert` — rejects a duplicate id
with `DuplicateKey` and leaves the store unchanged; otherwise appends the
entry with the next sequence number, adds its size to `totalSize`, and,
when a capacity is configured and exceeded, evicts the oldest previously
present entries (SizeFIFO) until back within capacity; if the store is
still over capacity once no older victim remains, the insert stays applied
and `CapacityExhausted` is reported.  No implementation exists in `src/`. -/
def IndexedStore.insert (s : IndexedStore) (tx : Transaction) :
    IndexedStore × Option InsertError :=
  if (mapFind s.entries tx.getTxid).isSome then
    (s, some InsertError.duplicateKey)
  else
    let total1 := s.totalSize + tx.getSize
    let step :=
      if s.capacity = 0 then (s.entries, total1)
      else evictLoop s.capacity s.entries total1
    ({ entries := step.1 ++ [(tx.getTxid, { tx := tx, seq := s.nextSequence })],
       totalSize := step.2,
       capacity := s.capacity,
       nextSequence := s.nextSequence + 1 },
     if 0 < s.capacity ∧ s.capacity < step.2 then
       some InsertError.capacityExhausted
     else none)

/-- Insert a list of transactions in order, keeping the store state. -/
def insertAll (s : IndexedStore) (txs : List Transaction) : IndexedStore :=
  txs.foldl (fun acc tx => (acc.insert tx).1) s

/-- Modelled from the spec: `IndexedStore.remove` — erases the entry and
subtracts its size; absent keys leave the store unchanged. -/
def IndexedStore.removeEntry (s : IndexedStore) (d : String) : IndexedStore :=
  match mapFind s.entries d with
  | none => s
  | some e =>
      { entries := mapErase s.entries d,
        totalSize := s.totalSize - e.tx.getSize,
        capacity := s.capacity,
        nextSequence := s.nextSequence }

/-- Modelled from the spec: one batch operation, `Remove(Digest)` or
`Upsert(Entry)`. -/
inductive BatchOp where
  | remove (d : String)
  | upsert (tx : Transaction)
  deriving DecidableEq, Repr

/-- Modelled from the spec: validity of one batch operation under the
default configuration — a removal is always well-formed, an upsert is
malformed exactly when its entry payload is empty (`rejectEmptyPayload`
defaults to true). -/
def BatchOp.valid : BatchOp → Bool
  | BatchOp.remove _ => true
  | BatchOp.upsert tx => decide (tx.data.length ≠ 0)

/-- Modelled from the spec: applying one validated batch operation —
`Remove` drops the key when present, `Upsert` removes any existing entry
for the id and then appends the new one (remove-then-insert semantics). -/
def applyBatchOp (s : IndexedStore) : BatchOp → IndexedStore
  | BatchOp.remove d => s.removeEntry d
  | BatchOp.upsert tx =>
      let s1 := s.removeEntry tx.getTxid
      { entries := s1.entries ++ [(tx.getTxid, { tx := tx, seq := s1.nextSequence })],
        totalSize := s1.totalSize + tx.getSize,
        capacity := s1.capacity,
        nextSequence := s1.nextSequence + 1 }

/-- Modelled from the spec: `BatchCoordinator.commit` — when every
operation is valid, applies them all in order and then runs eviction once
on the result; when any operation is invalid, returns the store exactly as
it was together with the rejection reason (all-or-nothing).  No
implementation exists in `src/` (`UTXOCache::batchUpdate` applies
operations unconditionally and cannot reject). -/
def BatchCoordinator.commit (s : IndexedStore) (ops : List BatchOp) :
    IndexedStore × Option String :=
  if ops.all BatchOp.valid then
    let s1 := ops.foldl applyBatchOp s
    let step :=
      if s1.capacity = 0 then (s1.entries, s1.totalSize)
      else evictLoop s1.capacity s1.entries s1.totalSize
    ({ entries := step.1, totalSize := step.2,
       capacity := s1.capacity, nextSequence := s1.nextSequence }, none)
  else (s, some "Rejected")

/-! ### Concrete stand-in for the hashing collaborator

Used only to instantiate witnesses and counterexamples; the collaborator is
deterministic, so any fixed function exhibits the behaviours shown. -/

/-- A concrete 32-byte digest function standing in for the external SHA-256
collaborator in concrete evaluations: the payload padded with zeros and
truncated to 32 bytes. -/
def sha256Stub (p : Payload) : Payload :=
  (p ++ List.replicate 32 0).take 32

/-- A concrete one-byte transaction used in concrete evaluations. -/
def cTx1 : Transaction := Transaction.make sha256Stub [1]

/-- A concrete two-byte transaction used in concrete evaluations. -/
def cTx2 : Transaction := Transaction.make sha256Stub [2, 2]

/-- A concrete three-byte transaction used in concrete evaluations. -/
def cTx3 : Transaction := Transaction.make sha256Stub [3, 3, 3]

/-- The manager state after adding three distinct payloads. -/
def mgr3 : TransactionManager :=
  [[1], [2, 2], [3, 3, 3]].foldl
    (fun g p => (TransactionManager.addTransaction sha256Stub g p).2)
    { mempool := Mempool.empty }

/-! ## Lemmas about the association-list map operations -/

theorem mapFind_mapAssign_self {κ α : Type} [DecidableEq κ]
    (l : List (κ × α)) (k : κ) (v : α) :
    mapFind (mapAssign l k v) k = some v := by
  induction l with
  | nil => simp [mapAssign, mapFind]
  | cons hd tl ih =>
      by_cases h : hd.1 = k
      · simp [mapAssign, mapFind, h]
      · simpa [mapAssign, mapFind, h] using ih

theorem mapFind_mapAssign_ne {κ α : Type} [DecidableEq κ]
    (l : List (κ × α)) (k k2 : κ) (v : α) (h : k2 ≠ k) :
    mapFind (mapAssign l k v) k2 = mapFind l k2 := by
  induction l with
  | nil => simp [mapAssign, mapFind, Ne.symm h]
  | cons hd tl ih =>
      by_cases hk : hd.1 = k
      · simp [mapAssign, mapFind, hk, Ne.symm h]
      · simp [mapAssign, mapFind, hk, ih]

theorem mapAssign_of_find_none {κ α : Type} [DecidableEq κ]
    (l : List (κ × α)) (k : κ) (v : α) (h : mapFind l k = none) :
    mapAssign l k v = l ++ [(k, v)] := by
  induction l with
  | nil => simp [mapAssign]
  | cons hd tl ih =>
      by_cases hk : hd.1 = k
      · simp [mapFind, hk] at h
      · simp [mapFind, hk] at h
        simp [mapAssign, hk, ih h]

theorem mapAssign_length_of_find_some {κ α : Type} [DecidableEq κ]
    (l : List (κ × α)) (k : κ) (v w : α) (h : mapFind l k = some w) :
    (mapAssign l k v).length = l.length := by
  induction l with
  | nil => simp [mapFind] at h
  | cons hd tl ih =>
      by_cases hk : hd.1 = k
      · simp [mapAssign, hk]
      · simp [mapFind, hk] at h
        simp [mapAssign, hk, ih h]

theorem mapErase_of_find_none {κ α : Type} [DecidableEq κ]
    (l : List (κ × α)) (k : κ) (h : mapFind l k = none) :
    mapErase l k = l := by
  induction l with
  | nil => simp [mapErase]
  | cons hd tl ih =>
      by_cases hk : hd.1 = k
      · simp [mapFind, hk] at h
      · simp [mapFind, hk] at h
        simp [mapErase, hk, ih h]

theorem mapFind_eq_none_of_not_mem {κ α : Type} [DecidableEq κ]
    (l : List (κ × α)) (k : κ) (h : k ∉ l.map Prod.fst) :
    mapFind l k = none := by
  induction l with
  | nil => simp [mapFind]
  | cons hd tl ih =>
      simp only [List.map_cons, List.mem_cons] at h
      push_neg at h
      have hk : hd.1 ≠ k := fun h2 => h.1 h2.symm
      simp [mapFind, hk, ih h.2]

theorem mapFind_mapErase_self {κ α : Type} [DecidableEq κ]
    (l : List (κ × α)) (k : κ) (h : (l.map Prod.fst).Nodup) :
    mapFind (mapErase l k) k = none := by
  induction l with
  | nil => simp [mapErase, mapFind]
  | cons hd tl ih =>
      simp only [List.map_cons, List.nodup_cons] at h
      by_cases hk : hd.1 = k
      · subst hk
        simpa [mapErase] using mapFind_eq_none_of_not_mem tl hd.1 h.1
      · simp [mapErase, mapFind, hk, ih h.2]

/-! ## Lemmas about size sums -/

theorem txSizeSum_append (a b : List (String × Transaction)) :
    txSizeSum (a ++ b) = txSizeSum a + txSizeSum b := by
  simp [txSizeSum]

theorem getSize_le_txSizeSum (l : List (String × Transaction)) (k : String)
    (tx : Transaction) (h : mapFind l k = some tx) :
    tx.getSize ≤ txSizeSum l := by
  induction l with
  | nil => simp [mapFind] at h
  | cons hd tl ih =>
      by_cases hk : hd.1 = k
      · simp [mapFind, hk] at h
        simp [txSizeSum, h]
      · simp [mapFind, hk] at h
        have h3 := ih h
        simp only [txSizeSum, List.map_cons, List.sum_cons] at h3 ⊢
        omega

theorem txSizeSum_mapErase (l : List (String × Transaction)) (k : String)
    (tx : Transaction) (h : mapFind l k = some tx) :
    txSizeSum (mapErase l k) = txSizeSum l - tx.getSize := by
  induction l with
  | nil => simp [mapFind] at h
  | cons hd tl ih =>
      by_cases hk : hd.1 = k
      · simp [mapFind, hk] at h
        simp [mapErase, hk, txSizeSum, h]
      · simp [mapFind, hk] at h
        have h1 := ih h
        have h2 := getSize_le_txSizeSum tl k tx h
        simp only [mapErase, hk, if_false, txSizeSum, List.map_cons,
          List.sum_cons] at h1 h2 ⊢
        omega

/-! ## The mempool size invariant under duplicate-free operation sequences -/

theorem validOps_totalSize_eq (ops : List Op) :
    ∀ m : Mempool, validOps m ops = true → m.totalSize = presentSizeSum m →
      (applyOps m ops).totalSize = presentSizeSum (applyOps m ops) := by
  induction ops with
  | nil => intro m _ hsum; simpa [applyOps] using hsum
  | cons op rest ih =>
      intro m hvalid hsum
      cases op with
      | insert tx =>
          simp only [validOps, Bool.and_eq_true] at hvalid
          obtain ⟨habs, hrest⟩ := hvalid
          have hnone : mapFind m.transactions tx.getTxid = none := by
            cases hf : mapFind m.transactions tx.getTxid with
            | none => rfl
            | some t => simp [Mempool.hasTransaction, hf] at habs
          have hsum2 : (m.addTransaction tx).totalSize =
              presentSizeSum (m.addTransaction tx) := by
            simp [Mempool.addTransaction, presentSizeSum,
              mapAssign_of_find_none _ _ _ hnone, txSizeSum_append, txSizeSum,
              hsum]
          have := ih (m.addTransaction tx) hrest hsum2
          simpa [applyOps, applyOp] using this
      | remove txid =>
          simp only [validOps] at hvalid
          have hsum2 : ((m.removeTransaction txid).2).totalSize =
              presentSizeSum ((m.removeTransaction txid).2) := by
            cases hfind : mapFind m.transactions txid with
            | none => simpa [Mempool.removeTransaction, hfind] using hsum
            | some tx =>
                simp [Mempool.removeTransaction, hfind, presentSizeSum,
                  txSizeSum_mapErase _ _ _ hfind, hsum]
          have := ih ((m.removeTransaction txid).2) hvalid hsum2
          simpa [applyOps, applyOp] using this

/-! ## Lemmas about the SizeFIFO eviction loop -/

theorem storeSizeSum_append (a b : List (String × StoreEntry)) :
    storeSizeSum (a ++ b) = storeSizeSum a + storeSizeSum b := by
  simp [storeSizeSum]

theorem evictLoop_suffix (cap : Nat) :
    ∀ (l : List (String × StoreEntry)) (t : Nat),
      ∃ dropped, l = dropped ++ (evictLoop cap l t).1 := by
  intro l
  induction l with
  | nil => intro t; exact ⟨[], rfl⟩
  | cons e rest ih =>
      intro t
      by_cases hlt : cap < t
      · obtain ⟨d, hd⟩ := ih (t - e.2.tx.getSize)
        exact ⟨e :: d, by simp [evictLoop, hlt]; exact hd⟩
      · exact ⟨[], by simp [evictLoop, hlt]⟩

theorem evictLoop_spec (cap : Nat) :
    ∀ (l : List (String × StoreEntry)) (extra : Nat),
      (evictLoop cap l (storeSizeSum l + extra)).2 =
          storeSizeSum (evictLoop cap l (storeSizeSum l + extra)).1 + extra ∧
        ((evictLoop cap l (storeSizeSum l + extra)).2 ≤ cap ∨
          (evictLoop cap l (storeSizeSum l + extra)).1 = []) := by
  intro l
  induction l with
  | nil =>
      intro extra
      constructor
      · simp [evictLoop, storeSizeSum]
      · right; simp [evictLoop]
  | cons e rest ih =>
      intro extra
      have hsum : storeSizeSum (e :: rest) + extra =
          e.2.tx.getSize + (storeSizeSum rest + extra) := by
        simp only [storeSizeSum, List.map_cons, List.sum_cons]
        omega
      by_cases hlt : cap < storeSizeSum (e :: rest) + extra
      · have hstep : evictLoop cap (e :: rest) (storeSizeSum (e :: rest) + extra) =
            evictLoop cap rest (storeSizeSum (e :: rest) + extra - e.2.tx.getSize) := by
          simp [evictLoop, hlt]
        have harg : storeSizeSum (e :: rest) + extra - e.2.tx.getSize =
            storeSizeSum rest + extra := by
          simp only [storeSizeSum, List.map_cons, List.sum_cons]
          omega
        rw [hstep, harg]
        exact ih extra
      · constructor
        · simp [evictLoop, hlt]
        · left
          simp only [evictLoop, hlt, if_false]
          omega

theorem insert_preserves_inv (C : Nat) (hC : 0 < C) (s : IndexedStore)
    (tx : Transaction) (hcap : s.capacity = C)
    (hsum : s.totalSize = storeSizeSum s.entries) (hle : s.totalSize ≤ C)
    (htx : tx.getSize ≤ C) :
    (s.insert tx).1.capacity = C ∧
      (s.insert tx).1.totalSize = storeSizeSum (s.insert tx).1.entries ∧
      (s.insert tx).1.totalSize ≤ C := by
  cases hdup : (mapFind s.entries tx.getTxid).isSome with
  | true => simp [IndexedStore.insert, hdup, hcap, ← hsum, hle]
  | false =>
      have hne : ¬ s.capacity = 0 := by omega
      have hCne : ¬ C = 0 := by omega
      have hins : (s.insert tx).1 =
          { entries := (evictLoop C s.entries (storeSizeSum s.entries + tx.getSize)).1
              ++ [(tx.getTxid, { tx := tx, seq := s.nextSequence })],
            totalSize := (evictLoop C s.entries (storeSizeSum s.entries + tx.getSize)).2,
            capacity := s.capacity,
            nextSequence := s.nextSequence + 1 } := by
        simp [IndexedStore.insert, hdup, hne, hCne, hcap, hsum]
      obtain ⟨h2, h3⟩ := evictLoop_spec C s.entries tx.getSize
      refine ⟨by rw [hins]; exact hcap, ?_, ?_⟩
      · rw [hins]
        show (evictLoop C s.entries (storeSizeSum s.entries + tx.getSize)).2 =
          storeSizeSum ((evictLoop C s.entries (storeSizeSum s.entries + tx.getSize)).1
            ++ [(tx.getTxid, { tx := tx, seq := s.nextSequence })])
        rw [storeSizeSum_append, h2]
        simp [storeSizeSum]
      · rw [hins]
        rcases h3 with h3 | h3
        · exact h3
        · show (evictLoop C s.entries (storeSizeSum s.entries + tx.getSize)).2 ≤ C
          rw [h2, h3]
          simpa [storeSizeSum] using htx

theorem insertAll_le_capacity (C : Nat) (hC : 0 < C) (txs : List Transaction) :
    ∀ s : IndexedStore, s.capacity = C →
      s.totalSize = storeSizeSum s.entries → s.totalSize ≤ C →
      (∀ tx ∈ txs, tx.getSize ≤ C) →
      (insertAll s txs).totalSize ≤ C := by
  induction txs with
  | nil => intro s _ _ h3 _; simpa [insertAll] using h3
  | cons tx rest ih =>
      intro s h1 h2 h3 h4
      obtain ⟨g1, g2, g3⟩ :=
        insert_preserves_inv C hC s tx h1 h2 h3 (h4 tx (by simp))
      have := ih (s.insert tx).1 g1 g2 g3 (fun t ht => h4 t (by simp [ht]))
      simpa [insertAll] using this

/-! ## Claim theorems -/

/-- C1 counterexample: inserting the same one-byte transaction twice leaves
one entry of size 1 in the pool while `getTotalSize` reports 2, because
`Mempool::addTransaction` adds the size before overwriting the existing
mapping and never subtracts the overwritten entry's size. -/
theorem dup_insert_breaks_size_invariant :
    (applyOps Mempool.empty [Op.insert cTx1, Op.insert cTx1]).getTotalSize ≠
      presentSizeSum (applyOps Mempool.empty [Op.insert cTx1, Op.insert cTx1]) := by
  decide

/-- C1 (amended): for every finite sequence of insert and remove operations
starting from the empty mempool in which no insert is performed while its
txid is already present, `getTotalSize` at the quiescent end state equals
the sum of the sizes of the transactions currently present. -/
theorem totalSize_eq_sum_of_validOps (ops : List Op)
    (h : validOps Mempool.empty ops = true) :
    (applyOps Mempool.empty ops).getTotalSize =
      presentSizeSum (applyOps Mempool.empty ops) :=
  validOps_totalSize_eq ops Mempool.empty h rfl

/-- C1 witness: a concrete duplicate-free insert/remove/insert sequence. -/
theorem totalSize_eq_sum_of_validOps_witness :
    validOps Mempool.empty
        [Op.insert cTx1, Op.remove cTx1.getTxid, Op.insert cTx2] = true ∧
      (applyOps Mempool.empty
          [Op.insert cTx1, Op.remove cTx1.getTxid, Op.insert cTx2]).getTotalSize =
        presentSizeSum (applyOps Mempool.empty
          [Op.insert cTx1, Op.remove cTx1.getTxid, Op.insert cTx2]) :=
  ⟨by decide, totalSize_eq_sum_of_validOps _ (by decide)⟩

/-- C2 counterexample: after two distinct inserts (sizes 1 and 2) a
duplicate insert attempt does not leave the store unchanged —
`getTotalSize` grows from 3 to 4 (the duplicate's size is counted again)
even though the entry count stays 2; no error is reported
(`addTransaction` returns `void`). -/
theorem dup_insert_store_changed :
    ((Mempool.empty.addTransaction cTx1).addTransaction cTx2).addTransaction cTx1 ≠
        (Mempool.empty.addTransaction cTx1).addTransaction cTx2 ∧
      (((Mempool.empty.addTransaction cTx1).addTransaction cTx2).addTransaction
          cTx1).getTotalSize = 4 ∧
      ((Mempool.empty.addTransaction cTx1).addTransaction cTx2).getTotalSize = 3 ∧
      (((Mempool.empty.addTransaction cTx1).addTransaction cTx2).addTransaction
          cTx1).entryCount = 2 := by
  decide

/-- C2 (amended): a duplicate insert does not fail (`addTransaction` has no
failure path): it overwrites the stored entry for that txid and adds the
new entry's size to `totalSize_`, leaving the entry count unchanged — so
after two distinct inserts and one duplicate insert attempt the store still
has exactly 2 entries, but `getTotalSize` has grown by the duplicate's
size. -/
theorem addTransaction_duplicate_overwrites (m : Mempool) (tx : Transaction)
    (h : m.hasTransaction tx.getTxid = true) :
    (m.addTransaction tx).entryCount = m.entryCount ∧
      mapFind (m.addTransaction tx).transactions tx.getTxid = some tx ∧
      (m.addTransaction tx).getTotalSize = m.getTotalSize + tx.getSize := by
  obtain ⟨w, hw⟩ : ∃ w, mapFind m.transactions tx.getTxid = some w := by
    cases hf : mapFind m.transactions tx.getTxid with
    | none => simp [Mempool.hasTransaction, hf] at h
    | some w => exact ⟨w, rfl⟩
  exact ⟨mapAssign_length_of_find_some m.transactions tx.getTxid tx w hw,
    mapFind_mapAssign_self m.transactions tx.getTxid tx, rfl⟩

/-- C2 witness: a concrete duplicate insert over a one-entry pool. -/
theorem addTransaction_duplicate_overwrites_witness :
    (Mempool.empty.addTransaction cTx1).hasTransaction cTx1.getTxid = true ∧
      (((Mempool.empty.addTransaction cTx1).addTransaction cTx1).entryCount =
          (Mempool.empty.addTransaction cTx1).entryCount ∧
        mapFind ((Mempool.empty.addTransaction cTx1).addTransaction
            cTx1).transactions cTx1.getTxid = some cTx1 ∧
        ((Mempool.empty.addTransaction cTx1).addTransaction cTx1).getTotalSize =
          (Mempool.empty.addTransaction cTx1).getTotalSize + cTx1.getSize) :=
  ⟨by decide, addTransaction_duplicate_overwrites _ _ (by decide)⟩

/-- C5: `removeTransaction` on a present txid returns the stored
transaction, erases it and subtracts its size from `totalSize_`, and a
second removal of the same txid then returns `none` with the pool left
untouched (the payload is never handed out twice); `removeTransaction` on
an absent txid is not an error — it returns `none` and leaves the pool,
and in particular its entry count, unchanged.  The `Nodup` hypothesis is
the key-uniqueness representation invariant of `std::unordered_map`. -/
theorem removeTransaction_spec (m : Mempool) (d : String)
    (hnd : (m.transactions.map Prod.fst).Nodup) :
    (∀ tx, mapFind m.transactions d = some tx →
      m.removeTransaction d =
          (some tx, { transactions := mapErase m.transactions d,
                      totalSize := m.totalSize - tx.getSize }) ∧
        ((m.removeTransaction d).2).removeTransaction d =
          (none, (m.removeTransaction d).2)) ∧
      (mapFind m.transactions d = none →
        m.removeTransaction d = (none, m) ∧
          (m.removeTransaction d).2.entryCount = m.entryCount) := by
  constructor
  · intro tx htx
    have herase : mapFind (mapErase m.transactions d) d = none :=
      mapFind_mapErase_self m.transactions d hnd
    constructor
    · simp [Mempool.removeTransaction, htx]
    · simp [Mempool.removeTransaction, htx, herase]
  · intro hnone
    simp [Mempool.removeTransaction, hnone]

/-- C5 witness: removal of the only entry of a one-entry pool. -/
theorem removeTransaction_spec_witness :
    ((Mempool.empty.addTransaction cTx1).transactions.map Prod.fst).Nodup ∧
      ((∀ tx, mapFind (Mempool.empty.addTransaction cTx1).transactions
            cTx1.getTxid = some tx →
        (Mempool.empty.addTransaction cTx1).removeTransaction cTx1.getTxid =
            (some tx,
              { transactions :=
                  mapErase (Mempool.empty.addTransaction cTx1).transactions
                    cTx1.getTxid,
                totalSize := (Mempool.empty.addTransaction cTx1).totalSize -
                  tx.getSize }) ∧
          (((Mempool.empty.addTransaction cTx1).removeTransaction
              cTx1.getTxid).2).removeTransaction cTx1.getTxid =
            (none, ((Mempool.empty.addTransaction cTx1).removeTransaction
              cTx1.getTxid).2)) ∧
      (mapFind (Mempool.empty.addTransaction cTx1).transactions cTx1.getTxid =
          none →
        (Mempool.empty.addTransaction cTx1).removeTransaction cTx1.getTxid =
            (none, Mempool.empty.addTransaction cTx1) ∧
          ((Mempool.empty.addTransaction cTx1).removeTransaction
              cTx1.getTxid).2.entryCount =
            (Mempool.empty.addTransaction cTx1).entryCount)) :=
  ⟨by decide, removeTransaction_spec _ _ (by decide)⟩

/-- C6: a `Transaction` constructed from payload `p` has
`txid == calculateTxid(payload)` — the lowercase hex encoding of the
external collaborator's digest of its own stored payload — and
`getSize() == len(p)`; both fields are plain immutable values with no
mutating interface. -/
theorem transaction_id_and_size (sha256 : Payload → Payload) (p : Payload) :
    (Transaction.make sha256 p).getTxid =
        calculateTxid sha256 (Transaction.make sha256 p).data ∧
      (Transaction.make sha256 p).getTxid =
        String.mk ((sha256 p).map hexByte).flatten ∧
      (Transaction.make sha256 p).getSize = p.length :=
  ⟨rfl, rfl, rfl⟩

/-- C7: `UTXOCache::batchUpdate` applied to a batch
`[Remove(d1), Upsert(k, new)]` where `d1` is absent and `k` already holds a
coin replaces the existing coin (`insert_or_assign` semantics): the
subsequent `getCoin(k)` returns the new coin, the removal of the absent
`d1` is a no-op rather than a failure (`batchUpdate` returns `void` and has
no failure path), and every other key is untouched. -/
theorem batchUpdate_upsert_replaces (c : UTXOCache) (d1 k : OutPoint)
    (old new : Coin) (h1 : c.getCoin d1 = none) (_h2 : c.getCoin k = some old) :
    (c.batchUpdate [(d1, none), (k, some new)]).getCoin k = some new ∧
      c.batchUpdate [(d1, none)] = c ∧
      ∀ k2, k2 ≠ k →
        (c.batchUpdate [(d1, none), (k, some new)]).getCoin k2 = c.getCoin k2 := by
  have herase : mapErase c.cache d1 = c.cache :=
    mapErase_of_find_none c.cache d1 h1
  refine ⟨?_, ?_, ?_⟩
  · simp [UTXOCache.batchUpdate, UTXOCache.getCoin, herase,
      mapFind_mapAssign_self]
  · simp [UTXOCache.batchUpdate, herase]
  · intro k2 hk2
    simp [UTXOCache.batchUpdate, UTXOCache.getCoin, herase,
      mapFind_mapAssign_ne c.cache k k2 new hk2]

/-- C7 witness: a one-coin cache, removing an absent outpoint and
upserting a replacement for the present one. -/
theorem batchUpdate_upsert_replaces_witness :
    ({ cache := [(OutPoint.mk [5] 0, Coin.mk 50 [1] 10 false)] } :
        UTXOCache).getCoin (OutPoint.mk [9] 1) = none ∧
      ({ cache := [(OutPoint.mk [5] 0, Coin.mk 50 [1] 10 false)] } :
        UTXOCache).getCoin (OutPoint.mk [5] 0) = some (Coin.mk 50 [1] 10 false) ∧
      (({ cache := [(OutPoint.mk [5] 0, Coin.mk 50 [1] 10 false)] } :
            UTXOCache).batchUpdate
          [(OutPoint.mk [9] 1, none),
            (OutPoint.mk [5] 0, some (Coin.mk 60 [2] 11 false))]).getCoin
          (OutPoint.mk [5] 0) = some (Coin.mk 60 [2] 11 false) ∧
      ({ cache := [(OutPoint.mk [5] 0, Coin.mk 50 [1] 10 false)] } :
          UTXOCache).batchUpdate [(OutPoint.mk [9] 1, none)] =
        { cache := [(OutPoint.mk [5] 0, Coin.mk 50 [1] 10 false)] } ∧
      ∀ k2, k2 ≠ OutPoint.mk [5] 0 →
        (({ cache := [(OutPoint.mk [5] 0, Coin.mk 50 [1] 10 false)] } :
              UTXOCache).batchUpdate
            [(OutPoint.mk [9] 1, none),
              (OutPoint.mk [5] 0, some (Coin.mk 60 [2] 11 false))]).getCoin k2 =
          ({ cache := [(OutPoint.mk [5] 0, Coin.mk 50 [1] 10 false)] } :
            UTXOCache).getCoin k2 := by
  have h := batchUpdate_upsert_replaces
    { cache := [(OutPoint.mk [5] 0, Coin.mk 50 [1] 10 false)] }
    (OutPoint.mk [9] 1) (OutPoint.mk [5] 0)
    (Coin.mk 50 [1] 10 false) (Coin.mk 60 [2] 11 false)
    (by decide) (by decide)
  exact ⟨by decide, by decide, h.1, h.2.1, h.2.2⟩

/-- C8: the code contradicts the claim — `TransactionManager` as written
returns `0` from `getTransactionCount` (marked `// Placeholder` in the
source) even though, after three inserts of distinct payloads, three
transactions of total size 6 are present in the mempool. -/
theorem getTransactionCount_placeholder_zero :
    mgr3.getTransactionCount = 0 ∧ mgr3.mempool.entryCount = 3 ∧
      mgr3.getMempoolSize = 6 := by
  decide

/-- C9 counterexample: `addTransaction` on an empty payload succeeds — it
returns `true` and the size-0 transaction is present afterwards; no
`InvalidPayload` failure exists anywhere in the code. -/
theorem empty_payload_insert_succeeds :
    (TransactionManager.addTransaction sha256Stub { mempool := Mempool.empty }
        []).1 = true ∧
      ((TransactionManager.addTransaction sha256Stub
            { mempool := Mempool.empty } []).2).mempool.hasTransaction
        (calculateTxid sha256Stub []) = true := by
  decide

/-- C9 (amended): constructing a `Transaction` from an empty payload does
not fail — the constructor performs no payload validation (there is no
`rejectEmptyPayload` configuration in the code), so `addTransaction` on an
empty payload returns `true` and the size-0 transaction is present in the
mempool afterwards; the outcome is an ordinary return value, never a
crash. -/
theorem addTransaction_empty_payload_accepted (sha256 : Payload → Payload)
    (mgr : TransactionManager) :
    (TransactionManager.addTransaction sha256 mgr []).1 = true ∧
      mapFind ((TransactionManager.addTransaction sha256 mgr
          []).2).mempool.transactions (calculateTxid sha256 []) =
        some (Transaction.make sha256 []) ∧
      (Transaction.make sha256 []).getSize = 0 :=
  ⟨rfl, mapFind_mapAssign_self _ _ _, rfl⟩

/-- C10: `TransactionManager::addTransaction` is total on its result type
(the embedding of a function whose every exit path is a `return`, the
`catch (const std::exception)` included): for every payload and every
behaviour of the transaction construction, either it returns `true` and
the constructed transaction is present in the mempool, or construction
threw, the exception was caught, `false` is returned and the manager is
exactly as before. -/
theorem addTransaction_no_exception_escape
    (ctor : Payload → Except Unit Transaction) (mgr : TransactionManager)
    (txData : Payload) :
    ((mgr.addTransactionWith ctor txData).1 = true ∧
        ∃ tx, ctor txData = Except.ok tx ∧
          ((mgr.addTransactionWith ctor txData).2).mempool.hasTransaction
            tx.getTxid = true) ∨
      ((mgr.addTransactionWith ctor txData).1 = false ∧
        (mgr.addTransactionWith ctor txData).2 = mgr ∧
        ∃ e, ctor txData = Except.error e) := by
  cases hc : ctor txData with
  | ok tx =>
      left
      refine ⟨by simp [TransactionManager.addTransactionWith, hc], tx, rfl, ?_⟩
      simp [TransactionManager.addTransactionWith, hc, Mempool.hasTransaction,
        Mempool.addTransaction, mapFind_mapAssign_self]
  | error e =>
      right
      exact ⟨by simp [TransactionManager.addTransactionWith, hc],
        by simp [TransactionManager.addTransactionWith, hc], e, rfl⟩

/-- C3: `BatchCoordinator.commit` (modelled from the spec; the source's
`UTXOCache::batchUpdate` has no validation or failure path) on a batch
containing at least one invalid operation returns the rejection reason and
a store identical to the one before the call — same entries, same total
size; no operation of the batch is applied. -/
theorem commit_rejects_invalid_batch (s : IndexedStore) (ops : List BatchOp)
    (h : ops.all BatchOp.valid = false) :
    BatchCoordinator.commit s ops = (s, some "Rejected") ∧
      (BatchCoordinator.commit s ops).1.entries = s.entries ∧
      (BatchCoordinator.commit s ops).1.totalSize = s.totalSize := by
  have hc : BatchCoordinator.commit s ops = (s, some "Rejected") := by
    simp [BatchCoordinator.commit, h]
  exact ⟨hc, by rw [hc], by rw [hc]⟩

/-- C3 witness: a batch of two valid operations around one malformed
(empty-payload) upsert. -/
theorem commit_rejects_invalid_batch_witness :
    ([BatchOp.upsert cTx1, BatchOp.upsert (Transaction.make sha256Stub []),
        BatchOp.remove cTx2.getTxid].all BatchOp.valid = false) ∧
      (BatchCoordinator.commit (IndexedStore.emptyWith 100)
          [BatchOp.upsert cTx1, BatchOp.upsert (Transaction.make sha256Stub []),
            BatchOp.remove cTx2.getTxid] =
          (IndexedStore.emptyWith 100, some "Rejected") ∧
        (BatchCoordinator.commit (IndexedStore.emptyWith 100)
            [BatchOp.upsert cTx1,
              BatchOp.upsert (Transaction.make sha256Stub []),
              BatchOp.remove cTx2.getTxid]).1.entries =
          (IndexedStore.emptyWith 100).entries ∧
        (BatchCoordinator.commit (IndexedStore.emptyWith 100)
            [BatchOp.upsert cTx1,
              BatchOp.upsert (Transaction.make sha256Stub []),
              BatchOp.remove cTx2.getTxid]).1.totalSize =
          (IndexedStore.emptyWith 100).totalSize) :=
  ⟨by decide, commit_rejects_invalid_batch _ _ (by decide)⟩

/-- C4: for the spec-modelled `IndexedStore` with capacity `C > 0` and the
SizeFIFO policy (eviction itself is left unimplemented in the source),
(i) after any sequence of inserts of transactions none of which alone
exceeds `C`, the maintained `totalSize` is at most `C`; (ii) each insert
removes exactly a prefix of the insertion-ordered entry list — the oldest
entries by insertion sequence — and appends the new entry (or, for a
duplicate, leaves the store unchanged); and (iii) concretely, inserting
entries of sizes `[100, 200, 150]` with capacity `300` leaves only the
size-150 entry, with `totalSize = 150`. -/
theorem sizeFIFO_eviction_correct (C : Nat) (sha256 : Payload → Payload)
    (ps : List Payload) (hC : 0 < C) (hsz : ∀ p ∈ ps, p.length ≤ C) :
    (insertAll (IndexedStore.emptyWith C)
        (ps.map (Transaction.make sha256))).totalSize ≤ C ∧
      (∀ (s : IndexedStore) (tx : Transaction), ∃ dropped kept,
        s.entries = dropped ++ kept ∧
          ((s.insert tx).1.entries =
              kept ++ [(tx.getTxid, { tx := tx, seq := s.nextSequence })] ∨
            (s.insert tx).1 = s)) ∧
      (insertAll (IndexedStore.emptyWith 300)
          ([List.replicate 100 1, List.replicate 200 2,
              List.replicate 150 3].map
            (Transaction.make sha256Stub))).entries.map
          (fun e => e.2.tx.getSize) = [150] ∧
      (insertAll (IndexedStore.emptyWith 300)
          ([List.replicate 100 1, List.replicate 200 2,
              List.replicate 150 3].map
            (Transaction.make sha256Stub))).totalSize = 150 := by
  refine ⟨?_, ?_, by decide, by decide⟩
  · refine insertAll_le_capacity C hC _ (IndexedStore.emptyWith C) rfl rfl
      (by simp [IndexedStore.emptyWith]) ?_
    intro tx htx
    simp only [List.mem_map] at htx
    obtain ⟨p, hp, rfl⟩ := htx
    simpa [Transaction.make, Transaction.getSize] using hsz p hp
  · intro s tx
    cases hdup : (mapFind s.entries tx.getTxid).isSome with
    | true =>
        exact ⟨[], s.entries, rfl, Or.inr (by simp [IndexedStore.insert, hdup])⟩
    | false =>
        by_cases hcap0 : s.capacity = 0
        · exact ⟨[], s.entries, rfl,
            Or.inl (by simp [IndexedStore.insert, hdup, hcap0])⟩
        · obtain ⟨d, hd⟩ :=
            evictLoop_suffix s.capacity s.entries (s.totalSize + tx.getSize)
          refine ⟨d,
            (evictLoop s.capacity s.entries (s.totalSize + tx.getSize)).1, hd,
            Or.inl ?_⟩
          simp [IndexedStore.insert, hdup, hcap0]

/-- C4 witness: the `[100, 200, 150]` payload sequence against capacity
300. -/
theorem sizeFIFO_eviction_correct_witness :
    (0 < 300 ∧ ∀ p ∈ [List.replicate 100 1, List.replicate 200 2,
        List.replicate 150 3], List.length p ≤ 300) ∧
      ((insertAll (IndexedStore.emptyWith 300)
          ([List.replicate 100 1, List.replicate 200 2,
              List.replicate 150 3].map
            (Transaction.make sha256Stub))).totalSize ≤ 300 ∧
        (∀ (s : IndexedStore) (tx : Transaction), ∃ dropped kept,
          s.entries = dropped ++ kept ∧
            ((s.insert tx).1.entries =
                kept ++ [(tx.getTxid, { tx := tx, seq := s.nextSequence })] ∨
              (s.insert tx).1 = s)) ∧
        (insertAll (IndexedStore.emptyWith 300)
            ([List.replicate 100 1, List.replicate 200 2,
                List.replicate 150 3].map
              (Transaction.make sha256Stub))).entries.map
            (fun e => e.2.tx.getSize) = [150] ∧
        (insertAll (IndexedStore.emptyWith 300)
            ([List.replicate 100 1, List.replicate 200 2,
                List.replicate 150 3].map
              (Transaction.make sha256Stub))).totalSize = 150) :=
  ⟨⟨by decide, by decide⟩,
    sizeFIFO_eviction_correct 300 sha256Stub
      [List.replicate 100 1, List.replicate 200 2, List.replicate 150 3]
      (by decide) (by decide)⟩

end Cpp

